import Mathlib

/-!
Verification development for the Elite 100 visualizer (src/app.py).

The core pipeline of the app — time parsing/formatting, the four-way filter,
the brand layout derivation, the y-axis tick construction, the summary stats
and the dropdown "ALL" reducers — is shallowly embedded below.  Python strings
are modelled as lists of characters (so that the Python `str` operations
`strip`, `lower`, `split`, `split(',')` have direct structural models), and
the float lap times are modelled on the canonical exact scale `ℚ`.
-/

namespace Elite100

/-! ## Python string primitives -/

/-- Model of Python `str.strip()`: remove whitespace from both ends. -/
def pyStrip (l : List Char) : List Char :=
  ((l.dropWhile Char.isWhitespace).reverse.dropWhile Char.isWhitespace).reverse

/-- Model of Python `str.lower()` (ASCII case folding). -/
def pyLower (l : List Char) : List Char :=
  l.map Char.toLower

/-- Model of Python `str.split(',')`: split at every comma, keeping empty pieces. -/
def splitOnComma (l : List Char) : List (List Char) :=
  l.foldr
    (fun c acc =>
      match acc with
      | [] => [[c]]
      | t :: ts => if c = ',' then [] :: t :: ts else (c :: t) :: ts)
    [[]]

/-- Model of Python `str.split()` (no argument): split on whitespace runs,
dropping empty pieces. -/
def pyWords (l : List Char) : List (List Char) :=
  (l.foldr
    (fun c acc =>
      match acc with
      | [] => [[c]]
      | t :: ts => if c.isWhitespace then [] :: t :: ts else (c :: t) :: ts)
    [[]]).filter (fun w => w ≠ [])

/-- Leading run of decimal digits of a character list, together with the rest. -/
def takeDigits : List Char → List Char × List Char
  | [] => ([], [])
  | c :: r =>
    if c.isDigit then
      let p := takeDigits r
      (c :: p.1, p.2)
    else ([], c :: r)

/-- Numeric value of a single decimal digit character. -/
def digitVal (c : Char) : ℕ :=
  c.toNat - 48

/-- Numeric value of a string of decimal digits (most significant first). -/
def digitsVal (l : List Char) : ℕ :=
  l.foldl (fun a c => 10 * a + digitVal c) 0

/-- Value of a fractional digit string: `fracVal "289" = 289/1000`. -/
def fracVal (l : List Char) : ℚ :=
  (digitsVal l : ℚ) / 10 ^ l.length

/-! ## Time codec (src/app.py, `parse_time_to_seconds` / `seconds_to_duration`) -/

/-- Matcher for the seconds part of the strict pattern in
`parse_time_to_seconds`: one or two digits with an optional fractional part,
anchored at the end of the input (the regex fragment matching group 2). -/
def secMatch (l : List Char) : Option ℚ :=
  let p := takeDigits l
  if p.1.length = 0 ∨ 2 < p.1.length then none
  else
    match p.2 with
    | [] => some (digitsVal p.1 : ℚ)
    | c :: f =>
      if c = '.' ∧ f ≠ [] ∧ f.all Char.isDigit then
        some ((digitsVal p.1 : ℚ) + fracVal f)
      else none

/-- Matcher for the whole strict, anchored pattern of `parse_time_to_seconds`:
an optional all-digit minutes group followed by a colon, then the seconds
part.  Returns the `minutes * 60 + seconds` value on a match. -/
def strictMatch (l : List Char) : Option ℚ :=
  let p := takeDigits l
  match p.2 with
  | [] => secMatch l
  | c :: rest =>
    if c = ':' then
      if p.1 = [] then none
      else (secMatch rest).map (fun sv => (digitsVal p.1 : ℚ) * 60 + sv)
    else secMatch l

/-- Extraction of one numeric token (digits, then optionally a dot and more
digits) from an input that starts with a digit; models one match of the
fallback pattern of `parse_time_to_seconds`. -/
def takeNumToken (l : List Char) : List Char × List Char :=
  let p := takeDigits l
  match p.2 with
  | '.' :: r2 =>
    let q := takeDigits r2
    (p.1 ++ '.' :: q.1, q.2)
  | _ => (p.1, p.2)

/-- Fuel-indexed scan collecting all numeric tokens left to right. -/
def findallAux : ℕ → List Char → List (List Char)
  | 0, _ => []
  | _ + 1, [] => []
  | fuel + 1, c :: r =>
    if c.isDigit then
      let t := takeNumToken (c :: r)
      t.1 :: findallAux fuel t.2
    else findallAux fuel r

/-- Model of the fallback in `parse_time_to_seconds`: all numeric substrings
of the text, in order. -/
def findallNums (l : List Char) : List (List Char) :=
  findallAux l.length l

/-- Decimal value of one numeric token (models Python `float` on the token;
a trailing dot contributes nothing). -/
def numTokenVal (l : List Char) : ℚ :=
  let p := takeDigits l
  match p.2 with
  | '.' :: f => (digitsVal p.1 : ℚ) + fracVal f
  | _ => (digitsVal p.1 : ℚ)

/-- Model of `parse_time_to_seconds` (src/app.py lines 34-52).  Missing input
maps to an absent result; the text is stripped, matched against the strict
pattern, and otherwise against the single-numeric-substring fallback. -/
def parse_time_to_seconds (t : Option String) : Option ℚ :=
  match t with
  | none => none
  | some str =>
    let s := pyStrip str.data
    match strictMatch s with
    | some v => some v
    | none =>
      match findallNums s with
      | [tok] => some (numTokenVal tok)
      | _ => none

/-- Decimal digits of a natural number, fuel-indexed so it is structurally
recursive and kernel-evaluable. -/
def natDigitsAux : ℕ → ℕ → List Char
  | 0, _ => []
  | fuel + 1, n =>
    if n < 10 then [Char.ofNat (48 + n)]
    else natDigitsAux fuel (n / 10) ++ [Char.ofNat (48 + n % 10)]

/-- Decimal digit characters of a natural number, most significant first. -/
def natDigits (n : ℕ) : List Char :=
  natDigitsAux (n + 1) n

/-- Zero-padding on the left to width `k`, as Python zero-padded formatting. -/
def padZeros (k : ℕ) (l : List Char) : List Char :=
  List.replicate (k - l.length) '0' ++ l

/-- Decimal rendering of an integer with a leading minus sign when negative. -/
def intDigits (i : ℤ) : List Char :=
  if i < 0 then '-' :: natDigits i.natAbs else natDigits i.toNat

/-- Rounding of an exact rational to 1 decimal digit, scaled by 10 (models
Python `%.1f` on the values the app produces, which are exact at this
precision). -/
def round1 (q : ℚ) : ℤ :=
  ⌊q * 10 + 1 / 2⌋

/-- Rounding of an exact rational to 3 decimal digits, scaled by 1000 (models
Python `%.3f` on the values the app produces, which are exact at this
precision). -/
def round3 (q : ℚ) : ℤ :=
  ⌊q * 1000 + 1 / 2⌋

/-- Model of `seconds_to_duration` (src/app.py lines 54-63): absent input
renders as the empty string, otherwise minutes are split off by floor
division by 60 and the remainder is rendered as a zero-padded seconds field
with 1 or 3 fractional digits. -/
def seconds_to_duration (sec : Option ℚ) (decimals : ℕ) : String :=
  match sec with
  | none => String.mk []
  | some v =>
    let minutes : ℤ := ⌊v / 60⌋
    let rem : ℚ := v - 60 * (minutes : ℚ)
    if decimals = 1 then
      let n := round1 rem
      String.mk (padZeros 2 (intDigits minutes) ++
        ':' :: padZeros 4 (intDigits (n / 10) ++ '.' :: natDigits (n % 10).toNat))
    else
      let n := round3 rem
      String.mk (padZeros 2 (intDigits minutes) ++
        ':' :: padZeros 6 (intDigits (n / 1000) ++ '.' :: padZeros 3 (natDigits (n % 1000).toNat)))

/-! ## Data model -/

/-- One plottable row of the dataset (a row of `df_plot`): brand present and
lap time parsed.  Fields not used by any claim are omitted. -/
structure Record where
  name : String
  brand : String
  model : String
  chassisCode : String
  timeSec : ℚ
  engineType : String
  drivetrain : String
deriving DecidableEq

/-! ## Filter engine (src/app.py, `update_visualization` lines 236-276) -/

/-- A Dash dropdown value as the callbacks receive it: Python `None`, a bare
string, or a list of strings. -/
inductive PySel where
  | noneV : PySel
  | strV : String → PySel
  | listV : List String → PySel
deriving DecidableEq

/-- Python truthiness of a selection value. -/
def selTruthy : PySel → Bool
  | .noneV => false
  | .strV s => !s.data.isEmpty
  | .listV l => !l.isEmpty

/-- Containment check used in needles-in-haystack position: whether one
character list occurs contiguously inside another. -/
def leadsWith : List Char → List Char → Bool
  | [], _ => true
  | _ :: _, [] => false
  | a :: as, b :: bs => a = b && leadsWith as bs

/-- Contiguous-substring test over character lists. -/
def containsSeq (needle : List Char) : List Char → Bool
  | [] => leadsWith needle []
  | c :: r => leadsWith needle (c :: r) || containsSeq needle r

/-- Model of Python `'ALL' in selected`: list membership for a list value,
substring containment for a string value. -/
def selHasALL : PySel → Bool
  | .noneV => false
  | .strV s => containsSeq "ALL".data s.data
  | .listV l => l.contains "ALL"

/-- Model of Python `selected == 'ALL'`. -/
def selIsALL : PySel → Bool
  | .strV s => s == "ALL"
  | _ => false

/-- The list the code compares against after wrapping a bare string. -/
def selMembers : PySel → List String
  | .noneV => []
  | .strV s => [s]
  | .listV l => l

/-- Brand criterion of `update_visualization` (lines 239-242). -/
def brandFilter (sel : PySel) (rs : List Record) : List Record :=
  if selTruthy sel && !(selHasALL sel || selIsALL sel) then
    rs.filter (fun r => (selMembers sel).contains r.brand)
  else rs

/-- Drivetrain criterion of `update_visualization` (lines 245-248). -/
def drivetrainFilter (sel : PySel) (rs : List Record) : List Record :=
  if selTruthy sel && !(selHasALL sel || selIsALL sel) then
    rs.filter (fun r => (selMembers sel).contains r.drivetrain)
  else rs

/-- The comma-separated, stripped, lowercased search terms (line 255). -/
def searchTerms (s : String) : List (List Char) :=
  (splitOnComma s.data).map (fun t => pyLower (pyStrip t))

/-- Model of `matches_any_term` (src/app.py lines 259-275). -/
def matches_any_term (terms : List (List Char)) (model chassis : String) : Bool :=
  let modelLower := pyLower model.data
  let chassisLower := pyLower chassis.data
  let modelWords := pyWords modelLower
  terms.any (fun term =>
    if 1 < (pyWords term).length then term == modelLower
    else modelWords.contains term || term == chassisLower)

/-- Text criterion of `update_visualization` (lines 254-276): a no-op for a
missing or blank search text. -/
def textFilter (search : Option String) (rs : List Record) : List Record :=
  match search with
  | none => rs
  | some s =>
    if s.data ≠ [] ∧ pyStrip s.data ≠ [] then
      rs.filter (fun r => matches_any_term (searchTerms s) r.model r.chassisCode)
    else rs

/-! ## Layout deriver (src/app.py lines 279-306) -/

/-- Lexicographic comparison of character lists by code point, the order
Python and pandas use on strings. -/
def charsLe : List Char → List Char → Bool
  | [], _ => true
  | _ :: _, [] => false
  | a :: as, b :: bs =>
    if a.toNat < b.toNat then true
    else if b.toNat < a.toNat then false
    else charsLe as bs

/-- Code-point order on strings (the pandas group-key order). -/
def strLe (a b : String) : Prop :=
  charsLe a.data b.data = true

instance : DecidableRel strLe :=
  fun a b => inferInstanceAs (Decidable (charsLe a.data b.data = true))

/-- Strict code-point order on strings. -/
def strLt (a b : String) : Prop :=
  strLe a b ∧ a ≠ b

/-- Comparison by minimum time used when sorting the per-brand minima. -/
def timeLE : String × ℚ → String × ℚ → Prop :=
  fun p q => p.2 ≤ q.2

instance : DecidableRel timeLE :=
  fun p q => inferInstanceAs (Decidable (p.2 ≤ q.2))

/-- Brands in Record Store order of first appearance. -/
def storeBrands (rs : List Record) : List String :=
  (rs.map (fun r => r.brand)).dedup

/-- Brands in the sorted-key order produced by `groupby('Brand')`. -/
def brandsSorted (rs : List Record) : List String :=
  (storeBrands rs).insertionSort strLe

/-- Lap times of one brand's records, in store order. -/
def brandTimes (rs : List Record) (b : String) : List ℚ :=
  (rs.filter (fun r => r.brand == b)).map (fun r => r.timeSec)

/-- Minimum lap time of a brand (`groupby('Brand')['Time_sec'].min()`). -/
def brandMinTime (rs : List Record) (b : String) : ℚ :=
  match brandTimes rs b with
  | [] => 0
  | t :: ts => ts.foldl min t

/-- The grouped series: each brand, in sorted brand order, with its minimum. -/
def brandPairs (rs : List Record) : List (String × ℚ) :=
  (brandsSorted rs).map (fun b => (b, brandMinTime rs b))

/-- The series after `sort_values()` (modelled as a stable sort by value). -/
def brandPairsSorted (rs : List Record) : List (String × ℚ) :=
  (brandPairs rs).insertionSort timeLE

/-- Displayed left-to-right brand order (`brand_order_simple`). -/
def brandOrder (rs : List Record) : List String :=
  (brandPairsSorted rs).map Prod.fst

/-- Integer x-slot of a brand (`brand_position_simple`): its rank in the
displayed order. -/
def brandSlot (rs : List Record) (b : String) : ℕ :=
  (brandOrder rs).indexOf b

/-- Label text of a record, `"{model} {chassisCode}"`. -/
def labelStr (r : Record) : List Char :=
  r.model.data ++ ' ' :: r.chassisCode.data

/-- Maximum label length over one brand's records (`brand_max_text_width`),
0 for a brand without records. -/
def brandMaxTextWidth (rs : List Record) (b : String) : ℕ :=
  (((rs.filter (fun r => r.brand == b)).map (fun r => (labelStr r).length)).foldl Nat.max 0)

/-- Model of the layout computation of `update_visualization` (lines
279-306): the displayed brand order, the maximum label width estimate
(`max_brand_width`) and the clamped responsive chart width. -/
def layoutOf (rs : List Record) : List String × ℚ × ℚ :=
  if rs.isEmpty then ([], 0, 900)
  else
    let order := brandOrder rs
    let widths := order.map (fun b => brandMaxTextWidth rs b)
    let maxW : ℚ := if widths.isEmpty then 0 else ((widths.foldl Nat.max 0 : ℕ) : ℚ) * (8 / 100)
    let content : ℚ := (order.length : ℚ) * 100 + 500 + maxW * 200
    (order, maxW, min 1600 (max 900 content))

/-! ## Y-axis ticks (src/app.py lines 391-404) -/

/-- Minimum displayed time of a non-empty filtered set (0 on empty input,
which the code never queries). -/
def minTimeOf (rs : List Record) : ℚ :=
  match rs with
  | [] => 0
  | r :: t => t.foldl (fun a x => min a x.timeSec) r.timeSec

/-- Maximum displayed time of a non-empty filtered set. -/
def maxTimeOf (rs : List Record) : ℚ :=
  match rs with
  | [] => 0
  | r :: t => t.foldl (fun a x => max a x.timeSec) r.timeSec

/-- Model of `np.arange(start, stop, step)` for a positive step: the
`ceil((stop-start)/step)` values `start + k * step`. -/
def arange (start stop step : ℚ) : List ℚ :=
  (List.range (Int.toNat ⌈(stop - start) / step⌉)).map (fun k : ℕ => start + (k : ℚ) * step)

/-- Model of `np.sort(np.unique(...))`: ascending sort followed by removal of
duplicates. -/
def sortDedup (l : List ℚ) : List ℚ :=
  (l.insertionSort (fun a b => a ≤ b)).dedup

/-- First tick of the half-second grid: `np.ceil(min_time / 0.5) * 0.5`. -/
def tickStart (m : ℚ) : ℚ :=
  (⌈m / (1 / 2)⌉ : ℚ) * (1 / 2)

/-- Model of the tick value construction (lines 393-397). -/
def yTickValues (rs : List Record) : List ℚ :=
  sortDedup (minTimeOf rs :: arange (tickStart (minTimeOf rs)) (maxTimeOf rs + 1 / 2) (1 / 2))

/-- Fractional part, as Python `t % 1.0` for the nonnegative times shown. -/
def fracPart (t : ℚ) : ℚ :=
  t - (⌊t⌋ : ℚ)

/-- Label of one tick (lines 399-404). -/
def tickLabel (m t : ℚ) : String :=
  if t = m ∨ fracPart t < 1 / 100 then seconds_to_duration (some t) 3 else String.mk []

/-- Model of the tick label construction (lines 399-404). -/
def yTickLabels (rs : List Record) : List String :=
  (yTickValues rs).map (tickLabel (minTimeOf rs))

/-! ## Summary builder (src/app.py lines 447-453) -/

/-- Model of `Time_sec.idxmin()` row selection: the record with minimum lap
time, the earliest one on a tie. -/
def fastestRecord : List Record → Option Record
  | [] => none
  | r :: rs =>
    match fastestRecord rs with
    | none => some r
    | some b => some (if b.timeSec < r.timeSec then b else r)

/-- Model of the summary stats: vehicle count, distinct brand count, fastest
record. -/
def summarize (rs : List Record) : ℕ × ℕ × Option Record :=
  (rs.length,
   if rs.isEmpty then 0 else (rs.map (fun r => r.brand)).dedup.length,
   if rs.isEmpty then none else fastestRecord rs)

/-! ## Dropdown reducers (src/app.py lines 184-218) -/

/-- Model of `update_brand_dropdown`. -/
def update_brand_dropdown : PySel → PySel
  | .noneV => .strV "ALL"
  | .listV l =>
    if 1 < l.length ∧ l.contains "ALL" then .listV (l.filter (fun b => b ≠ "ALL"))
    else if l = ["ALL"] then .strV "ALL"
    else if l.length = 0 then .strV "ALL"
    else .listV l
  | .strV s => .strV s

/-- Model of `update_drivetrain_dropdown` (same body as the brand reducer). -/
def update_drivetrain_dropdown : PySel → PySel
  | .noneV => .strV "ALL"
  | .listV l =>
    if 1 < l.length ∧ l.contains "ALL" then .listV (l.filter (fun d => d ≠ "ALL"))
    else if l = ["ALL"] then .strV "ALL"
    else if l.length = 0 then .strV "ALL"
    else .listV l
  | .strV s => .strV s

/-! ## Claim-side comparison definitions -/

/-- Per-term text-match rule as the specification states it: a term of more
than one word matches only by equality with the lowercased model name, and
any other term matches a model word or the chassis code exactly. -/
def ClaimTermMatches (term : List Char) (r : Record) : Prop :=
  if 1 < (pyWords term).length then term = pyLower r.model.data
  else term ∈ pyWords (pyLower r.model.data) ∨ term = pyLower r.chassisCode.data

/-- Seconds-part shape of the strict time pattern, stated declaratively:
one or two digits with an optional nonempty all-digit fraction, and the
decimal value it denotes. -/
def SecSpec (d f : List Char) (v : ℚ) : Prop :=
  d ≠ [] ∧ d.length ≤ 2 ∧ d.all Char.isDigit = true ∧
    ((f = [] ∧ v = (digitsVal d : ℚ)) ∨
      (∃ fd, f = '.' :: fd ∧ fd ≠ [] ∧ fd.all Char.isDigit = true ∧
        v = (digitsVal d : ℚ) + fracVal fd))

/-- Whole strict-pattern shape of `parse_time_to_seconds`, declaratively: an
optional nonempty all-digit minutes group before a colon, then the seconds
part, and the value `minutes * 60 + seconds`. -/
def StrictSpec (s : List Char) (v : ℚ) : Prop :=
  (∃ m d f sv, s = m ++ ':' :: (d ++ f) ∧ m ≠ [] ∧ m.all Char.isDigit = true ∧
    SecSpec d f sv ∧ v = (digitsVal m : ℚ) * 60 + sv) ∨
  (∃ d f, s = d ++ f ∧ SecSpec d f v)

/-- Normalized zero-padded rendering of a minutes/seconds/milliseconds
triple, the normal form the round-trip claim compares against. -/
def normalizedMMSS (mm ss f3 : ℕ) : String :=
  String.mk (padZeros 2 (natDigits mm) ++
    ':' :: padZeros 2 (natDigits ss) ++ '.' :: padZeros 3 (natDigits f3))

/-- Tick membership as the claim words it: the half-second grid points
spanning from the ceiling of the minimum up to the maximum, together with
the minimum itself. -/
def ClaimTick (m M t : ℚ) : Prop :=
  t = m ∨ ∃ k : ℕ, t = tickStart m + (k : ℚ) * (1 / 2) ∧ t ≤ M

/-! ## Sample records for concrete instantiations -/

/-- Sample record used by concrete instantiations. -/
def sampleCivic : Record :=
  { name := "Honda Civic Type R", brand := "Honda", model := "Civic Type R",
    chassisCode := "FD2", timeSec := 99289 / 1000, engineType := "NA", drivetrain := "FWD" }

/-- Sample record whose brand is late in the alphabet. -/
def sampleBeta : Record :=
  { name := "b", brand := "Beta", model := "m", chassisCode := "c",
    timeSec := 1, engineType := "NA", drivetrain := "RWD" }

/-- Sample record whose brand is early in the alphabet, same time as
`sampleBeta`. -/
def sampleAlpha : Record :=
  { name := "a", brand := "Alpha", model := "m", chassisCode := "c",
    timeSec := 1, engineType := "NA", drivetrain := "RWD" }

/-- Sample record with lap time 58.2 seconds, off the half-second grid. -/
def sampleTick : Record :=
  { name := "t", brand := "B", model := "m", chassisCode := "c",
    timeSec := 291 / 5, engineType := "NA", drivetrain := "RWD" }

/-- Sample records realizing the layout example: minima 61.0, 58.2, 58.2. -/
def sampleLayoutA : Record :=
  { name := "ra", brand := "BrandA", model := "m", chassisCode := "c",
    timeSec := 61, engineType := "NA", drivetrain := "RWD" }

/-- Second record of the layout example, at 58.2 seconds. -/
def sampleLayoutB : Record :=
  { name := "rb", brand := "BrandB", model := "m", chassisCode := "c",
    timeSec := mkRat 291 5, engineType := "NA", drivetrain := "RWD" }

/-- Third record of the layout example, at 58.2 seconds. -/
def sampleLayoutC : Record :=
  { name := "rc", brand := "BrandC", model := "m", chassisCode := "c",
    timeSec := mkRat 291 5, engineType := "NA", drivetrain := "RWD" }

/-! ## Claim C1: the text filter -/

/-- Claim C1: for a non-blank search text the text filter keeps a record if
and only if some comma-separated, trimmed, lowercased term matches it under
the stated per-term rule, and for a blank search text it passes every record
unchanged. -/
theorem c1_text_filter (rs : List Record) (r : Record) (s : String) :
    (pyStrip s.data ≠ [] →
      (r ∈ textFilter (some s) rs ↔
        r ∈ rs ∧ ∃ t ∈ searchTerms s, ClaimTermMatches t r)) ∧
    (pyStrip s.data = [] → textFilter (some s) rs = rs) := by
  constructor
  · intro hne
    have hd : s.data ≠ [] := by
      intro h
      exact hne (by simp [pyStrip, h])
    simp only [textFilter]
    rw [if_pos ⟨hd, hne⟩, List.mem_filter]
    refine and_congr_right fun _ => ?_
    rw [matches_any_term, List.any_eq_true]
    refine exists_congr fun t => and_congr_right fun _ => ?_
    rw [ClaimTermMatches]
    split
    · simp
    · simp [List.elem_iff]
  · intro he
    simp only [textFilter]
    rw [if_neg]
    simp [he]

/-- Witness for claim C1 at a concrete record and search text. -/
theorem c1_text_filter_witness :
    (pyStrip "civic".data ≠ [] ∧
      (sampleCivic ∈ textFilter (some "civic") [sampleCivic] ↔
        sampleCivic ∈ [sampleCivic] ∧
          ∃ t ∈ searchTerms "civic", ClaimTermMatches t sampleCivic)) :=
  ⟨by decide, (c1_text_filter [sampleCivic] sampleCivic "civic").1 (by decide)⟩

/-! ## Claim C9: a list selection containing ALL skips the criterion -/

/-- Claim C9: any brand or drivetrain selection list containing the string
ALL — also alongside concrete values — makes the criterion pass every record
unchanged, exactly as if ALL alone were selected. -/
theorem c9_all_in_list_skips (l : List String) (rs : List Record)
    (h : "ALL" ∈ l) :
    brandFilter (.listV l) rs = rs ∧ drivetrainFilter (.listV l) rs = rs ∧
    brandFilter (.listV l) rs = brandFilter (.listV ["ALL"]) rs ∧
    drivetrainFilter (.listV l) rs = drivetrainFilter (.listV ["ALL"]) rs := by
  have skip : ∀ (l' : List String) (rs' : List Record), "ALL" ∈ l' →
      brandFilter (.listV l') rs' = rs' ∧ drivetrainFilter (.listV l') rs' = rs' := by
    intro l' rs' h'
    have hALL : selHasALL (.listV l') = true := by
      simp [selHasALL, List.elem_iff, h']
    have hcond : (selTruthy (.listV l') &&
        !(selHasALL (.listV l') || selIsALL (.listV l'))) = false := by
      rw [hALL]
      simp
    constructor
    · simp only [brandFilter]
      rw [hcond]
      simp
    · simp only [drivetrainFilter]
      rw [hcond]
      simp
  refine ⟨(skip l rs h).1, (skip l rs h).2, ?_, ?_⟩
  · rw [(skip l rs h).1, (skip ["ALL"] rs (by simp)).1]
  · rw [(skip l rs h).2, (skip ["ALL"] rs (by simp)).2]

/-- Witness for claim C9 at a concrete mixed selection list. -/
theorem c9_all_in_list_skips_witness :
    ("ALL" ∈ ["ALL", "Honda"] ∧
      brandFilter (.listV ["ALL", "Honda"]) [sampleCivic] = [sampleCivic] ∧
      drivetrainFilter (.listV ["ALL", "Honda"]) [sampleCivic] = [sampleCivic]) :=
  ⟨by decide,
    (c9_all_in_list_skips ["ALL", "Honda"] [sampleCivic] (by decide)).1,
    (c9_all_in_list_skips ["ALL", "Honda"] [sampleCivic] (by decide)).2.1⟩

/-! ## Claim C7: the dropdown ALL reducers -/

/-- The two reducers have the same body. -/
theorem update_drivetrain_eq_brand :
    update_drivetrain_dropdown = update_brand_dropdown := by
  funext sel
  cases sel <;> rfl

/-- Counterexample to claim C7: with the concrete value Honda active,
selecting ALL (raw selection [Honda, ALL]) does not drop the concrete
values — the reducer drops ALL instead and keeps [Honda]. -/
theorem c7_reducer_counterexample :
    update_brand_dropdown (.listV ["Honda", "ALL"]) = .listV ["Honda"] ∧
    ¬(update_brand_dropdown (.listV ["Honda", "ALL"]) = .strV "ALL" ∨
      update_brand_dropdown (.listV ["Honda", "ALL"]) = .listV ["ALL"]) := by
  decide

/-- Claim C7 as amended: the reducers never output a list combining ALL with
anything; a raw selection mixing ALL with concrete values drops ALL and
keeps the concrete values; selecting nothing (missing or empty) reverts to
ALL. -/
theorem c7_reducer_amended :
    (∀ sel l, update_brand_dropdown sel = .listV l → "ALL" ∉ l) ∧
    (∀ sel l, update_drivetrain_dropdown sel = .listV l → "ALL" ∉ l) ∧
    (∀ l, "ALL" ∈ l → (∃ x ∈ l, x ≠ "ALL") →
      update_brand_dropdown (.listV l) = .listV (l.filter (fun b => b ≠ "ALL")) ∧
      update_drivetrain_dropdown (.listV l) = .listV (l.filter (fun d => d ≠ "ALL"))) ∧
    update_brand_dropdown .noneV = .strV "ALL" ∧
    update_brand_dropdown (.listV []) = .strV "ALL" ∧
    update_drivetrain_dropdown .noneV = .strV "ALL" ∧
    update_drivetrain_dropdown (.listV []) = .strV "ALL" := by
  have keyList : ∀ l0 l, update_brand_dropdown (.listV l0) = .listV l → "ALL" ∉ l := by
    intro l0 l h hm
    simp only [update_brand_dropdown] at h
    by_cases h1 : 1 < l0.length ∧ l0.contains "ALL" = true
    · rw [if_pos h1] at h
      cases h
      simp [List.mem_filter] at hm
    · rw [if_neg h1] at h
      by_cases h2 : l0 = ["ALL"]
      · rw [if_pos h2] at h
        cases h
      · rw [if_neg h2] at h
        by_cases h3 : l0.length = 0
        · rw [if_pos h3] at h
          cases h
        · rw [if_neg h3] at h
          cases h
          have hc : l0.contains "ALL" = true := List.elem_iff.mpr hm
          have hle : ¬1 < l0.length := fun hgt => h1 ⟨hgt, hc⟩
          have hlen : l0.length = 1 := by omega
          obtain ⟨a, ha⟩ := List.length_eq_one.mp hlen
          rw [ha] at hm h2
          simp only [List.mem_singleton] at hm
          exact h2 (by rw [hm])
  have key : ∀ sel l, update_brand_dropdown sel = .listV l → "ALL" ∉ l := by
    intro sel l h
    cases sel with
    | noneV => exact absurd h (by simp [update_brand_dropdown])
    | strV s => exact absurd h (by simp [update_brand_dropdown])
    | listV l0 => exact keyList l0 l h
  have mixed : ∀ l, "ALL" ∈ l → (∃ x ∈ l, x ≠ "ALL") →
      update_brand_dropdown (.listV l) = .listV (l.filter (fun b => b ≠ "ALL")) := by
    intro l hmem ⟨x, hx, hxne⟩
    have hlen : 1 < l.length := by
      rcases l with _ | ⟨a, _ | ⟨b, t⟩⟩
      · simp at hmem
      · simp at hmem hx
        subst hmem hx
        exact absurd rfl hxne
      · simp
    simp only [update_brand_dropdown]
    rw [if_pos ⟨hlen, List.elem_iff.mpr hmem⟩]
  refine ⟨key, ?_, ?_, ?_, ?_, ?_, ?_⟩
  · rw [update_drivetrain_eq_brand]
    exact key
  · intro l h1 h2
    refine ⟨mixed l h1 h2, ?_⟩
    rw [update_drivetrain_eq_brand]
    exact mixed l h1 h2
  · decide
  · decide
  · rw [update_drivetrain_eq_brand]
    decide
  · rw [update_drivetrain_eq_brand]
    decide

/-- Witness for the amended claim C7 at a concrete mixed selection. -/
theorem c7_reducer_amended_witness :
    ("ALL" ∈ ["Honda", "ALL"] ∧ (∃ x ∈ ["Honda", "ALL"], x ≠ "ALL")) ∧
      update_brand_dropdown (.listV ["Honda", "ALL"]) =
        .listV (["Honda", "ALL"].filter (fun b => b ≠ "ALL")) :=
  ⟨⟨by decide, by decide⟩,
    (c7_reducer_amended.2.2.1 ["Honda", "ALL"] (by decide) (by decide)).1⟩

/-! ## Claim C5: the suggested chart width -/

/-- Claim C5: the suggested width equals the clamped content-width formula,
an empty filtered set yields the empty order, zero label width and width
900, and the width always lies in the interval 900 to 1600. -/
theorem c5_chart_width (rs : List Record) :
    (layoutOf rs).2.2 =
      min 1600 (max 900 (((layoutOf rs).1.length : ℚ) * 100 + 500 +
        ((((layoutOf rs).1.map (fun b => brandMaxTextWidth rs b)).foldl Nat.max 0 : ℕ) : ℚ)
          * (8 / 100) * 200)) ∧
    (rs = [] → layoutOf rs = ([], 0, 900)) ∧
    900 ≤ (layoutOf rs).2.2 ∧ (layoutOf rs).2.2 ≤ 1600 := by
  by_cases h : rs.isEmpty
  · have hrs : rs = [] := List.isEmpty_iff.mp h
    subst hrs
    refine ⟨?_, fun _ => rfl, ?_, ?_⟩ <;> simp [layoutOf] <;> norm_num
  · have hne : rs ≠ [] := by
      intro hrs
      subst hrs
      simp at h
    simp only [layoutOf, h, if_false, Bool.false_eq_true]
    refine ⟨?_, fun hrs => absurd hrs hne, ?_, ?_⟩
    · by_cases hw : ((brandOrder rs).map (fun b => brandMaxTextWidth rs b)).isEmpty
      · rw [if_pos hw]
        have : ((brandOrder rs).map (fun b => brandMaxTextWidth rs b)) = [] :=
          List.isEmpty_iff.mp hw
        rw [this]
        simp
      · rw [if_neg hw]
    · exact le_min (by norm_num) (le_max_left _ _)
    · exact min_le_left _ _

/-- Witness for claim C5 at the empty filtered set. -/
theorem c5_chart_width_witness :
    layoutOf ([] : List Record) = ([], 0, 900) ∧
      (900 : ℚ) ≤ (layoutOf ([] : List Record)).2.2 :=
  ⟨(c5_chart_width []).2.1 rfl, (c5_chart_width []).2.2.1⟩

/-! ## Claim C8: the summary stats -/

/-- Emptiness characterization of the fastest-record scan. -/
theorem fastestRecord_eq_none {rs : List Record} :
    fastestRecord rs = none ↔ rs = [] := by
  cases rs with
  | nil => simp [fastestRecord]
  | cons a t =>
    simp only [fastestRecord]
    cases fastestRecord t <;> simp

/-- Characterization of the fastest-record scan: it returns an element
attaining the minimum time, splitting the list so that everything before it
is strictly slower and everything after it no faster. -/
theorem fastestRecord_spec :
    ∀ (rs : List Record) (r : Record), fastestRecord rs = some r →
      ∃ pre post, rs = pre ++ r :: post ∧
        (∀ p ∈ pre, r.timeSec < p.timeSec) ∧ (∀ q ∈ post, r.timeSec ≤ q.timeSec) := by
  intro rs
  induction rs with
  | nil => intro r h; simp [fastestRecord] at h
  | cons a t ih =>
    intro r h
    simp only [fastestRecord] at h
    cases ht : fastestRecord t with
    | none =>
      rw [ht] at h
      have h' : some a = some r := h
      have hteq : t = [] := fastestRecord_eq_none.mp ht
      cases h'
      exact ⟨[], [], by simp [hteq], by simp, by simp [hteq]⟩
    | some b =>
      rw [ht] at h
      have h' : some (if b.timeSec < a.timeSec then b else a) = some r := h
      obtain ⟨pre, post, hdec, hpre, hpost⟩ := ih b ht
      by_cases hba : b.timeSec < a.timeSec
      · rw [if_pos hba] at h'
        cases h'
        refine ⟨a :: pre, post, by simp [hdec], ?_, hpost⟩
        intro p hp
        rcases List.mem_cons.mp hp with hp | hp
        · rw [hp]; exact hba
        · exact hpre p hp
      · rw [if_neg hba] at h'
        cases h'
        have hab : a.timeSec ≤ b.timeSec := le_of_not_lt hba
        refine ⟨[], t, rfl, by simp, ?_⟩
        intro q hq
        rw [hdec] at hq
        rcases List.mem_append.mp hq with hq | hq
        · exact le_of_lt (lt_of_le_of_lt hab (hpre q hq))
        · rcases List.mem_cons.mp hq with hq | hq
          · rw [hq]; exact hab
          · exact le_trans hab (hpost q hq)

/-- Claim C8: the summary returns the record count, the distinct brand
count, and for a non-empty set the first record attaining the minimum lap
time; an empty set yields zero counts and no fastest record. -/
theorem c8_summary (rs : List Record) :
    (summarize rs).1 = rs.length ∧
    (summarize rs).2.1 = (rs.map (fun r => r.brand)).toFinset.card ∧
    (rs = [] → summarize rs = (0, 0, none)) ∧
    (rs ≠ [] → ∃ r pre post, (summarize rs).2.2 = some r ∧
      rs = pre ++ r :: post ∧
      (∀ p ∈ pre, r.timeSec < p.timeSec) ∧
      (∀ q ∈ rs, r.timeSec ≤ q.timeSec)) := by
  refine ⟨rfl, ?_, ?_, ?_⟩
  · by_cases h : rs.isEmpty
    · have hrs : rs = [] := List.isEmpty_iff.mp h
      subst hrs
      simp [summarize]
    · simp only [summarize, h, if_false, Bool.false_eq_true]
      exact (List.card_toFinset _).symm
  · intro hrs
    subst hrs
    rfl
  · intro hne
    have h : ¬rs.isEmpty := by simpa [List.isEmpty_iff] using hne
    cases hf : fastestRecord rs with
    | none => exact absurd (fastestRecord_eq_none.mp hf) hne
    | some r =>
      obtain ⟨pre, post, hdec, hpre, hpost⟩ := fastestRecord_spec rs r hf
      refine ⟨r, pre, post, ?_, hdec, hpre, ?_⟩
      · simp only [summarize, h, if_false, Bool.false_eq_true]
        exact hf
      · intro q hq
        rw [hdec] at hq
        rcases List.mem_append.mp hq with hq | hq
        · exact le_of_lt (hpre q hq)
        · rcases List.mem_cons.mp hq with hq | hq
          · rw [hq]
          · exact hpost q hq

/-- Witness for claim C8 at a concrete two-record set with a tie. -/
theorem c8_summary_witness :
    ([sampleBeta, sampleAlpha] ≠ [] ∧
      ∃ r pre post, (summarize [sampleBeta, sampleAlpha]).2.2 = some r ∧
        [sampleBeta, sampleAlpha] = pre ++ r :: post ∧
        (∀ p ∈ pre, r.timeSec < p.timeSec) ∧
        (∀ q ∈ [sampleBeta, sampleAlpha], r.timeSec ≤ q.timeSec)) :=
  ⟨by simp, (c8_summary [sampleBeta, sampleAlpha]).2.2.2 (by simp)⟩

/-! ## Claim C6: the y-axis ticks -/

/-- Sorting and deduplicating preserves membership. -/
theorem mem_sortDedup {t : ℚ} {l : List ℚ} : t ∈ sortDedup l ↔ t ∈ l := by
  rw [sortDedup, List.mem_dedup]
  exact (List.perm_insertionSort _ l).mem_iff

/-- Membership in the model of `np.arange`. -/
theorem mem_arange {t start stop step : ℚ} :
    t ∈ arange start stop step ↔
      ∃ k : ℕ, (k : ℤ) < ⌈(stop - start) / step⌉ ∧ t = start + (k : ℚ) * step := by
  unfold arange
  constructor
  · intro ht
    rcases List.mem_map.mp ht with ⟨k, hk, hco⟩
    exact ⟨k, Int.lt_toNat.mp (List.mem_range.mp hk), hco.symm⟩
  · rintro ⟨k, hk, rfl⟩
    exact List.mem_map.mpr ⟨k, List.mem_range.mpr (Int.lt_toNat.mpr hk), rfl⟩

/-- Membership in the tick list of a filtered set: the minimum itself plus
the half-second grid points below `max + 0.5`. -/
theorem mem_yTickValues {rs : List Record} {t : ℚ} :
    t ∈ yTickValues rs ↔
      (t = minTimeOf rs ∨
        ∃ k : ℕ, t = tickStart (minTimeOf rs) + (k : ℚ) * (1 / 2) ∧
          t < maxTimeOf rs + 1 / 2) := by
  rw [yTickValues, mem_sortDedup, List.mem_cons]
  refine or_congr Iff.rfl ?_
  rw [mem_arange]
  refine exists_congr fun k => ?_
  constructor
  · rintro ⟨hk, rfl⟩
    refine ⟨rfl, ?_⟩
    have hq : (k : ℚ) < (maxTimeOf rs + 1 / 2 - tickStart (minTimeOf rs)) / (1 / 2) := by
      exact_mod_cast Int.lt_ceil.mp hk
    have := (lt_div_iff₀ (by norm_num : (0 : ℚ) < 1 / 2)).mp hq
    linarith
  · rintro ⟨rfl, hlt⟩
    refine ⟨Int.lt_ceil.mpr ?_, rfl⟩
    push_cast
    rw [lt_div_iff₀ (by norm_num : (0 : ℚ) < 1 / 2)]
    linarith

/-- Counterexample to claim C6: for a single record at 58.2 seconds the code
emits the tick 58.5, which exceeds the maximum displayed time, while the
claimed tick set (grid points up to the maximum, plus the minimum) does not
contain it. -/
theorem c6_tick_values_counterexample :
    (117 / 2 : ℚ) ∈ yTickValues [sampleTick] ∧
      ¬ClaimTick (minTimeOf [sampleTick]) (maxTimeOf [sampleTick]) (117 / 2) := by
  have hmin : minTimeOf [sampleTick] = 291 / 5 := rfl
  have hmax : maxTimeOf [sampleTick] = 291 / 5 := rfl
  have hceil : ⌈(291 / 5 : ℚ) / (1 / 2)⌉ = (117 : ℤ) := by
    norm_num [Int.ceil_eq_iff]
  have hstart : tickStart (291 / 5) = 117 / 2 := by
    rw [tickStart, hceil]
    norm_num
  constructor
  · rw [mem_yTickValues, hmin, hmax, hstart]
    refine Or.inr ⟨0, by norm_num, by norm_num⟩
  · rw [hmin, hmax, ClaimTick, hstart]
    push_neg
    refine ⟨by norm_num, ?_⟩
    intro k _
    norm_num

/-- Claim C6 as amended: the tick values are exactly the half-second grid
points from the ceiling of the minimum up to (but excluding) the maximum
plus half a second — so a tick may exceed the maximum by up to half a
second — together with the minimum itself; a tick is labeled with the
3-decimal formatted time exactly when it equals the minimum or lies within
0.01 of a whole second, and is blank otherwise. -/
theorem c6_tick_values_amended (rs : List Record) (h : rs ≠ []) :
    (∀ t : ℚ, t ∈ yTickValues rs ↔
      (t = minTimeOf rs ∨
        ∃ k : ℕ, t = tickStart (minTimeOf rs) + (k : ℚ) * (1 / 2) ∧
          t < maxTimeOf rs + 1 / 2)) ∧
    yTickLabels rs = (yTickValues rs).map (fun t =>
      if t = minTimeOf rs ∨ fracPart t < 1 / 100
      then seconds_to_duration (some t) 3 else String.mk []) := by
  exact ⟨fun t => mem_yTickValues, rfl⟩

/-- Witness for the amended claim C6 at a concrete one-record set. -/
theorem c6_tick_values_amended_witness :
    ([sampleTick] ≠ [] ∧
      ∀ t : ℚ, t ∈ yTickValues [sampleTick] ↔
        (t = minTimeOf [sampleTick] ∨
          ∃ k : ℕ, t = tickStart (minTimeOf [sampleTick]) + (k : ℚ) * (1 / 2) ∧
            t < maxTimeOf [sampleTick] + 1 / 2)) :=
  ⟨by simp, (c6_tick_values_amended [sampleTick] (by simp)).1⟩

/-! ## Claim C2: the displayed brand order -/

/-- Unfolding equation of the code-point comparison at a cons pair. -/
theorem charsLe_cons_iff {x y : Char} {as bs : List Char} :
    charsLe (x :: as) (y :: bs) = true ↔
      x.toNat < y.toNat ∨ (x.toNat = y.toNat ∧ charsLe as bs = true) := by
  show (if x.toNat < y.toNat then true
    else if y.toNat < x.toNat then false else charsLe as bs) = true ↔ _
  split_ifs with h1 h2
  · simp [h1]
  · simp
    omega
  · have hxy : x.toNat = y.toNat := by omega
    constructor
    · intro h
      exact Or.inr ⟨hxy, h⟩
    · rintro (h | ⟨-, h⟩)
      · exact absurd h h1
      · exact h

/-- Totality of the code-point comparison. -/
theorem charsLe_total : ∀ a b : List Char, charsLe a b = true ∨ charsLe b a = true := by
  intro a
  induction a with
  | nil => intro b; exact Or.inl rfl
  | cons x as ih =>
    intro b
    cases b with
    | nil => exact Or.inr rfl
    | cons y bs =>
      rcases Nat.lt_trichotomy x.toNat y.toNat with h | h | h
      · exact Or.inl (charsLe_cons_iff.mpr (Or.inl h))
      · rcases ih bs with hab | hba
        · exact Or.inl (charsLe_cons_iff.mpr (Or.inr ⟨h, hab⟩))
        · exact Or.inr (charsLe_cons_iff.mpr (Or.inr ⟨h.symm, hba⟩))
      · exact Or.inr (charsLe_cons_iff.mpr (Or.inl h))

/-- Transitivity of the code-point comparison. -/
theorem charsLe_trans : ∀ a b c : List Char,
    charsLe a b = true → charsLe b c = true → charsLe a c = true := by
  intro a
  induction a with
  | nil => intro b c _ _; rfl
  | cons x as ih =>
    intro b c hab hbc
    cases b with
    | nil => exact absurd hab (by simp [charsLe])
    | cons y bs =>
      cases c with
      | nil => exact absurd hbc (by simp [charsLe])
      | cons z cs =>
        rcases charsLe_cons_iff.mp hab with h1 | ⟨h1, h1r⟩ <;>
          rcases charsLe_cons_iff.mp hbc with h2 | ⟨h2, h2r⟩
        · exact charsLe_cons_iff.mpr (Or.inl (lt_trans h1 h2))
        · exact charsLe_cons_iff.mpr (Or.inl (by omega))
        · exact charsLe_cons_iff.mpr (Or.inl (by omega))
        · exact charsLe_cons_iff.mpr (Or.inr ⟨by omega, ih bs cs h1r h2r⟩)

instance : IsTotal String strLe :=
  ⟨fun a b => charsLe_total a.data b.data⟩

instance : IsTrans String strLe :=
  ⟨fun a b c => charsLe_trans a.data b.data c.data⟩

/-- The grouped brand list is strictly increasing in the code-point order. -/
theorem brandsSorted_pairwise (rs : List Record) :
    (brandsSorted rs).Pairwise strLt := by
  have hsort : (brandsSorted rs).Sorted strLe :=
    List.sorted_insertionSort strLe (storeBrands rs)
  have hnd : (brandsSorted rs).Nodup :=
    (List.perm_insertionSort strLe (storeBrands rs)).nodup_iff.mpr (List.nodup_dedup _)
  exact hsort.imp₂ (fun _ _ hle hne => ⟨hle, hne⟩) hnd

/-- Stability step: inserting an element whose name precedes every name in a
time-and-name sorted list keeps the list time-and-name sorted. -/
theorem orderedInsert_lex {a : String × ℚ} {l : List (String × ℚ)}
    (hl : l.Pairwise (fun p q => p.2 < q.2 ∨ (p.2 = q.2 ∧ strLt p.1 q.1)))
    (ha : ∀ q ∈ l, strLt a.1 q.1) :
    (List.orderedInsert timeLE a l).Pairwise
      (fun p q => p.2 < q.2 ∨ (p.2 = q.2 ∧ strLt p.1 q.1)) := by
  induction l with
  | nil => simp
  | cons b t ih =>
    show (if timeLE a b then a :: b :: t else b :: List.orderedInsert timeLE a t).Pairwise _
    by_cases hab : timeLE a b
    · rw [if_pos hab]
      refine List.Pairwise.cons ?_ hl
      intro q hq
      rcases List.mem_cons.mp hq with rfl | hq
      · rcases lt_or_eq_of_le (hab : a.2 ≤ q.2) with h | h
        · exact Or.inl h
        · exact Or.inr ⟨h, ha q (List.mem_cons_self q t)⟩
      · have hbq := (List.pairwise_cons.mp hl).1 q hq
        have hb2 : b.2 ≤ q.2 := by
          rcases hbq with h | ⟨h, -⟩
          · exact le_of_lt h
          · exact le_of_eq h
        rcases lt_or_eq_of_le (le_trans (hab : a.2 ≤ b.2) hb2) with h | h
        · exact Or.inl h
        · exact Or.inr ⟨h, ha q (List.mem_cons_of_mem b hq)⟩
    · rw [if_neg hab]
      refine List.Pairwise.cons ?_
        (ih (List.pairwise_cons.mp hl).2 fun q hq => ha q (List.mem_cons_of_mem b hq))
      intro q hq
      rcases (List.mem_orderedInsert timeLE).mp hq with rfl | hq
      · exact Or.inl (lt_of_not_le hab)
      · exact (List.pairwise_cons.mp hl).1 q hq

/-- Sorting pairs by time with the stable insertion sort, starting from a
name-sorted list, produces a list sorted by time with name tie-breaks. -/
theorem insertionSort_lex {l : List (String × ℚ)}
    (h : l.Pairwise (fun p q => strLt p.1 q.1)) :
    (l.insertionSort timeLE).Pairwise
      (fun p q => p.2 < q.2 ∨ (p.2 = q.2 ∧ strLt p.1 q.1)) := by
  induction l with
  | nil => simp
  | cons a t ih =>
    show (List.orderedInsert timeLE a (t.insertionSort timeLE)).Pairwise _
    refine orderedInsert_lex (ih (List.pairwise_cons.mp h).2) ?_
    intro q hq
    exact (List.pairwise_cons.mp h).1 q
      ((List.perm_insertionSort timeLE t).mem_iff.mp hq)

/-- Elements of the sorted pair list carry their brand's minimum time. -/
theorem brandPairsSorted_snd {rs : List Record} {p : String × ℚ}
    (hp : p ∈ brandPairsSorted rs) : p.2 = brandMinTime rs p.1 := by
  have hp' : p ∈ brandPairs rs :=
    (List.perm_insertionSort timeLE (brandPairs rs)).mem_iff.mp hp
  rcases List.mem_map.mp hp' with ⟨b, -, rfl⟩
  rfl

/-- The brand order lists the grouped brands in some order. -/
theorem brandOrder_perm (rs : List Record) :
    (brandOrder rs).Perm (brandsSorted rs) := by
  have h1 : ((brandPairsSorted rs).map Prod.fst).Perm ((brandPairs rs).map Prod.fst) :=
    (List.perm_insertionSort timeLE (brandPairs rs)).map Prod.fst
  have h2 : (brandPairs rs).map Prod.fst = brandsSorted rs := by
    rw [brandPairs, List.map_map]
    exact List.map_id _
  rw [brandOrder]
  rw [h2] at h1
  exact h1

/-- Counterexample to claim C2: two records with equal times whose store
order (Beta before Alpha) disagrees with the alphabetical group order; the
code breaks the tie alphabetically, not by Record Store order as claimed. -/
theorem c2_brand_order_counterexample :
    storeBrands [sampleBeta, sampleAlpha] = ["Beta", "Alpha"] ∧
    brandMinTime [sampleBeta, sampleAlpha] "Beta" =
      brandMinTime [sampleBeta, sampleAlpha] "Alpha" ∧
    brandOrder [sampleBeta, sampleAlpha] = ["Alpha", "Beta"] ∧
    brandOrder [sampleBeta, sampleAlpha] ≠ ["Beta", "Alpha"] := by
  decide

/-- Claim C2 as amended: brands are ordered by ascending minimum time with
ties broken by ascending brand name (the grouped order, with the value sort
modelled as stable) — not by Record Store order; the order is a permutation
of the grouped brands, each brand's x-slot is its index in the order, and
the claim's concrete example holds. -/
theorem c2_brand_order_amended (rs : List Record) :
    (brandOrder rs).Pairwise (fun b1 b2 =>
      brandMinTime rs b1 < brandMinTime rs b2 ∨
        (brandMinTime rs b1 = brandMinTime rs b2 ∧ strLt b1 b2)) ∧
    (brandOrder rs).Perm (brandsSorted rs) ∧
    (∀ i : ℕ, ∀ hi : i < (brandOrder rs).length,
      brandSlot rs ((brandOrder rs).get ⟨i, hi⟩) = i) ∧
    brandOrder [sampleLayoutA, sampleLayoutB, sampleLayoutC] =
      ["BrandB", "BrandC", "BrandA"] := by
  refine ⟨?_, brandOrder_perm rs, ?_, by decide⟩
  · have hpw : (brandPairs rs).Pairwise (fun p q => strLt p.1 q.1) := by
      rw [brandPairs, List.pairwise_map]
      exact brandsSorted_pairwise rs
    have hs := insertionSort_lex hpw
    rw [brandOrder, List.pairwise_map]
    refine hs.imp_of_mem ?_
    intro p q hp hq hpq
    rw [brandPairsSorted_snd hp, brandPairsSorted_snd hq] at hpq
    exact hpq
  · intro i hi
    have hnd : (brandOrder rs).Nodup :=
      (brandOrder_perm rs).nodup_iff.mpr
        ((brandsSorted_pairwise rs).imp fun h => h.2)
    rw [brandSlot]
    simpa using List.indexOf_getElem hnd i hi

/-- Witness for the amended claim C2: its slot clause instantiated at the
three-record example. -/
theorem c2_brand_order_amended_witness :
    ((0 : ℕ) < (brandOrder [sampleLayoutA, sampleLayoutB, sampleLayoutC]).length ∧
      brandSlot [sampleLayoutA, sampleLayoutB, sampleLayoutC]
        ((brandOrder [sampleLayoutA, sampleLayoutB, sampleLayoutC]).get
          ⟨0, by decide⟩) = 0) :=
  ⟨by decide,
    (c2_brand_order_amended [sampleLayoutA, sampleLayoutB, sampleLayoutC]).2.2.1 0 (by decide)⟩

/-! ## Parser lemmas for claims C3, C4 and C10 -/

/-- Unfolding equation of `takeDigits` at a cons. -/
theorem takeDigits_cons (x : Char) (r : List Char) :
    takeDigits (x :: r) =
      if x.isDigit then (x :: (takeDigits r).1, (takeDigits r).2)
      else ([], x :: r) := rfl

/-- Splitting property of `takeDigits`: the input is the digit run followed
by the rest, whose head (if any) is not a digit. -/
theorem takeDigits_spec (l : List Char) :
    l = (takeDigits l).1 ++ (takeDigits l).2 ∧
    (takeDigits l).1.all Char.isDigit = true ∧
    (∀ c cs, (takeDigits l).2 = c :: cs → c.isDigit = false) := by
  induction l with
  | nil => exact ⟨rfl, rfl, fun c cs h => by cases h⟩
  | cons x r ih =>
    by_cases hx : x.isDigit
    · rw [takeDigits_cons, if_pos hx]
      refine ⟨?_, ?_, fun c cs h => ih.2.2 c cs h⟩
      · show x :: r = (x :: (takeDigits r).1) ++ (takeDigits r).2
        rw [List.cons_append, ← ih.1]
      · simpa [hx] using ih.2.1
    · rw [takeDigits_cons, if_neg hx]
      exact ⟨rfl, rfl, fun c cs h => by cases h; simpa using hx⟩

/-- Determinism of `takeDigits` on an explicit digit-run decomposition. -/
theorem takeDigits_append {d rest : List Char} (hd : d.all Char.isDigit = true)
    (hrest : ∀ c cs, rest = c :: cs → c.isDigit = false) :
    takeDigits (d ++ rest) = (d, rest) := by
  induction d with
  | nil =>
    cases rest with
    | nil => rfl
    | cons c cs =>
      rw [List.nil_append, takeDigits_cons, if_neg]
      simp [hrest c cs rfl]
  | cons x ds ih =>
    have hx : x.isDigit = true := by
      have := List.all_eq_true.mp hd x (List.mem_cons_self x ds)
      simpa using this
    rw [List.cons_append, takeDigits_cons, if_pos hx,
      ih (by simpa [hx] using hd)]

/-- Digit characters are not whitespace. -/
theorem not_ws_of_digit {c : Char} (h : c.isDigit = true) :
    c.isWhitespace = false := by
  by_contra hw
  rw [Bool.not_eq_false] at hw
  simp [Char.isWhitespace] at hw
  rcases hw with ((rfl | rfl) | rfl) | rfl <;> revert h <;> decide

/-- Stripping is the identity on whitespace-free text. -/
theorem pyStrip_eq_self {l : List Char}
    (h : ∀ c ∈ l, c.isWhitespace = false) : pyStrip l = l := by
  have hdw : ∀ m : List Char, (∀ c ∈ m, c.isWhitespace = false) →
      m.dropWhile Char.isWhitespace = m := by
    intro m hm
    cases m with
    | nil => rfl
    | cons c r =>
      rw [List.dropWhile_cons, if_neg]
      simp [hm c (List.mem_cons_self c r)]
  rw [pyStrip, hdw l h, hdw l.reverse (fun c hc => h c (List.mem_reverse.mp hc)),
    List.reverse_reverse]

/-- Digit values are below ten. -/
theorem digitVal_lt {c : Char} (h : c.isDigit = true) : digitVal c < 10 := by
  simp [Char.isDigit] at h
  obtain ⟨h1, h2⟩ := h
  have g1 : ('0' : Char).toNat ≤ c.toNat := h1
  have g2 : c.toNat ≤ ('9' : Char).toNat := h2
  have e1 : ('0' : Char).toNat = 48 := by decide
  have e2 : ('9' : Char).toNat = 57 := by decide
  rw [digitVal]
  omega

/-- Accumulator bound for the digit-string value fold. -/
theorem digitsVal_foldl_lt (l : List Char) :
    ∀ a : ℕ, (∀ c ∈ l, digitVal c < 10) →
      l.foldl (fun a c => 10 * a + digitVal c) a < (a + 1) * 10 ^ l.length := by
  induction l with
  | nil => intro a _; simpa using Nat.lt_succ_self a
  | cons c r ih =>
    intro a h
    rw [List.foldl_cons]
    have hc : digitVal c < 10 := h c (List.mem_cons_self c r)
    have := ih (10 * a + digitVal c) (fun x hx => h x (List.mem_cons_of_mem c hx))
    calc List.foldl (fun a c => 10 * a + digitVal c) (10 * a + digitVal c) r
        < (10 * a + digitVal c + 1) * 10 ^ r.length := this
      _ ≤ (a + 1) * 10 ^ (c :: r).length := by
          rw [List.length_cons, pow_succ]
          have : 10 * a + digitVal c + 1 ≤ (a + 1) * 10 := by omega
          calc (10 * a + digitVal c + 1) * 10 ^ r.length
              ≤ ((a + 1) * 10) * 10 ^ r.length := Nat.mul_le_mul_right _ this
            _ = (a + 1) * (10 ^ r.length * 10) := by ring

/-- Value bound for an all-digit string. -/
theorem digitsVal_lt {l : List Char} (h : l.all Char.isDigit = true) :
    digitsVal l < 10 ^ l.length := by
  have := digitsVal_foldl_lt l 0
    (fun c hc => digitVal_lt (List.all_eq_true.mp h c hc))
  simpa [digitsVal] using this

/-- Unfolding of the seconds matcher through a known digit-run split. -/
theorem secMatch_eq (l d f : List Char) (htd : takeDigits l = (d, f)) :
    secMatch l =
      if d.length = 0 ∨ 2 < d.length then none
      else
        match f with
        | [] => some (digitsVal d : ℚ)
        | c :: f' =>
          if c = '.' ∧ f' ≠ [] ∧ f'.all Char.isDigit then
            some ((digitsVal d : ℚ) + fracVal f')
          else none := by
  have hd' : d = (takeDigits l).1 := by rw [htd]
  have hf' : f = (takeDigits l).2 := by rw [htd]
  subst hd' hf'
  rfl

/-- Unfolding of the strict matcher when the digit run is the whole input. -/
theorem strictMatch_eq_nil (l d : List Char) (htd : takeDigits l = (d, [])) :
    strictMatch l = secMatch l := by
  simp only [strictMatch, htd]

/-- Unfolding of the strict matcher through a known digit-run split with a
nonempty remainder. -/
theorem strictMatch_eq_cons (l d : List Char) (c : Char) (rest : List Char)
    (htd : takeDigits l = (d, c :: rest)) :
    strictMatch l =
      if c = ':' then
        if d = [] then none
        else (secMatch rest).map (fun sv => (digitsVal d : ℚ) * 60 + sv)
      else secMatch l := by
  simp only [strictMatch, htd]

/-- Soundness of the seconds matcher with respect to the declarative
seconds shape. -/
theorem secMatch_sound {l : List Char} {v : ℚ} (h : secMatch l = some v) :
    ∃ d f, l = d ++ f ∧ SecSpec d f v := by
  obtain ⟨hdecomp, hdig, hhead⟩ := takeDigits_spec l
  rw [secMatch_eq l (takeDigits l).1 (takeDigits l).2 rfl] at h
  by_cases hc : (takeDigits l).1.length = 0 ∨ 2 < (takeDigits l).1.length
  · rw [if_pos hc] at h
    cases h
  · rw [if_neg hc] at h
    push_neg at hc
    obtain ⟨hne0, hle2⟩ := hc
    have hdne : (takeDigits l).1 ≠ [] := by
      intro h0
      exact hne0 (by rw [h0]; rfl)
    cases hf : (takeDigits l).2 with
    | nil =>
      rw [hf] at h
      cases h
      exact ⟨(takeDigits l).1, [], hdecomp.trans (by rw [hf]), hdne, hle2, hdig,
        Or.inl ⟨rfl, rfl⟩⟩
    | cons c cs =>
      rw [hf] at h
      have h' : (if c = '.' ∧ cs ≠ [] ∧ cs.all Char.isDigit = true
          then some ((digitsVal (takeDigits l).1 : ℚ) + fracVal cs)
          else none) = some v := h
      by_cases hcond : c = '.' ∧ cs ≠ [] ∧ cs.all Char.isDigit = true
      · rw [if_pos hcond] at h'
        cases h'
        obtain ⟨rfl, hcne, hcdig⟩ := hcond
        exact ⟨(takeDigits l).1, '.' :: cs, hdecomp.trans (by rw [hf]), hdne, hle2, hdig,
          Or.inr ⟨cs, rfl, hcne, hcdig, rfl⟩⟩
      · rw [if_neg hcond] at h'
        cases h'

/-- Completeness of the seconds matcher with respect to the declarative
seconds shape. -/
theorem secMatch_complete {d f : List Char} {v : ℚ} (h : SecSpec d f v) :
    secMatch (d ++ f) = some v := by
  obtain ⟨hne, hlen, hdig, hval⟩ := h
  have hcnd : ¬(d.length = 0 ∨ 2 < d.length) := by
    push_neg
    exact ⟨fun h0 => hne (List.length_eq_zero.mp h0), hlen⟩
  rcases hval with ⟨rfl, rfl⟩ | ⟨fd, rfl, hfne, hfdig, rfl⟩
  · have htd : takeDigits (d ++ []) = (d, []) :=
      takeDigits_append hdig (fun c cs hcs => by cases hcs)
    rw [secMatch_eq _ d [] htd, if_neg hcnd]
  · have htd : takeDigits (d ++ '.' :: fd) = (d, '.' :: fd) :=
      takeDigits_append hdig (fun c cs hcs => by cases hcs; decide)
    rw [secMatch_eq _ d ('.' :: fd) htd, if_neg hcnd]
    show (if '.' = '.' ∧ fd ≠ [] ∧ fd.all Char.isDigit then
        some ((digitsVal d : ℚ) + fracVal fd) else none) = _
    rw [if_pos ⟨rfl, hfne, hfdig⟩]

/-- Membership form of an all-digit hypothesis. -/
theorem all_digit_mem {l : List Char} (h : l.all Char.isDigit = true)
    {c : Char} (hc : c ∈ l) : c.isDigit = true := by
  have := List.all_eq_true.mp h c hc
  simpa using this

/-- Completeness of the strict matcher for the declarative strict shape. -/
theorem strictMatch_complete {s : List Char} {v : ℚ} (h : StrictSpec s v) :
    strictMatch s = some v := by
  rcases h with ⟨m, d, f, sv, rfl, hmne, hmdig, hsec, rfl⟩ | ⟨d, f, rfl, hsec⟩
  · have htd : takeDigits (m ++ ':' :: (d ++ f)) = (m, ':' :: (d ++ f)) :=
      takeDigits_append hmdig (fun c cs hcs => by cases hcs; decide)
    rw [strictMatch_eq_cons _ m ':' (d ++ f) htd, if_pos rfl, if_neg hmne,
      secMatch_complete hsec]
    rfl
  · obtain ⟨hne, hlen, hdig, hval⟩ := hsec
    rcases hval with ⟨rfl, rfl⟩ | ⟨fd, rfl, hfne, hfdig, rfl⟩
    · have htd : takeDigits (d ++ []) = (d, []) :=
        takeDigits_append hdig (fun c cs hcs => by cases hcs)
      rw [strictMatch_eq_nil _ d htd]
      exact secMatch_complete ⟨hne, hlen, hdig, Or.inl ⟨rfl, rfl⟩⟩
    · have htd : takeDigits (d ++ '.' :: fd) = (d, '.' :: fd) :=
        takeDigits_append hdig (fun c cs hcs => by cases hcs; decide)
      rw [strictMatch_eq_cons _ d '.' fd htd, if_neg (by decide)]
      exact secMatch_complete ⟨hne, hlen, hdig, Or.inr ⟨fd, rfl, hfne, hfdig, rfl⟩⟩

/-- Soundness of the strict matcher for the declarative strict shape. -/
theorem strictMatch_sound {s : List Char} {v : ℚ} (h : strictMatch s = some v) :
    StrictSpec s v := by
  obtain ⟨hdecomp, hdig, hhead⟩ := takeDigits_spec s
  cases hf : (takeDigits s).2 with
  | nil =>
    rw [strictMatch_eq_nil s (takeDigits s).1 (by rw [← hf])] at h
    rcases secMatch_sound h with ⟨d, f, hdf, hspec⟩
    exact Or.inr ⟨d, f, hdf, hspec⟩
  | cons c cs =>
    rw [strictMatch_eq_cons s (takeDigits s).1 c cs (by rw [← hf])] at h
    by_cases hc : c = ':'
    · rw [if_pos hc] at h
      by_cases hm0 : (takeDigits s).1 = []
      · rw [if_pos hm0] at h
        cases h
      · rw [if_neg hm0] at h
        rcases Option.map_eq_some'.mp h with ⟨sv, hsv, hveq⟩
        rcases secMatch_sound hsv with ⟨d, f, hdf, hspec⟩
        refine Or.inl ⟨(takeDigits s).1, d, f, sv, ?_, hm0, hdig, hspec, hveq.symm⟩
        subst hc
        calc s = (takeDigits s).1 ++ (takeDigits s).2 := hdecomp
          _ = (takeDigits s).1 ++ ':' :: cs := by rw [hf]
          _ = (takeDigits s).1 ++ ':' :: (d ++ f) := by rw [hdf]
    · rw [if_neg hc] at h
      rcases secMatch_sound h with ⟨d, f, hdf, hspec⟩
      exact Or.inr ⟨d, f, hdf, hspec⟩

/-- Unfolding equation of the parser on a present string. -/
theorem parse_some_eq (s : String) :
    parse_time_to_seconds (some s) =
      match strictMatch (pyStrip s.data) with
      | some v => some v
      | none =>
        match findallNums (pyStrip s.data) with
        | [tok] => some (numTokenVal tok)
        | _ => none := rfl

/-- The parser returns the declarative strict-pattern value when the
stripped input has the strict shape. -/
theorem parse_strict {s : String} {v : ℚ}
    (h : StrictSpec (pyStrip s.data) v) :
    parse_time_to_seconds (some s) = some v := by
  rw [parse_some_eq, strictMatch_complete h]

/-! ## Claim C3: the time parser -/

/-- Claim C3: the parser returns minutes times sixty plus seconds on the
strict pattern, otherwise falls back to the single numeric substring when
exactly one exists, and otherwise — including empty or missing input — is
absent; with the claimed concrete examples. -/
theorem c3_parse_time (s : String) :
    (∀ v : ℚ, StrictSpec (pyStrip s.data) v →
      parse_time_to_seconds (some s) = some v) ∧
    ((∀ v : ℚ, ¬StrictSpec (pyStrip s.data) v) →
      (∀ tok, findallNums (pyStrip s.data) = [tok] →
        parse_time_to_seconds (some s) = some (numTokenVal tok)) ∧
      ((¬∃ tok, findallNums (pyStrip s.data) = [tok]) →
        parse_time_to_seconds (some s) = none)) ∧
    parse_time_to_seconds none = none ∧
    parse_time_to_seconds (some "") = none ∧
    parse_time_to_seconds (some "abc") = none ∧
    parse_time_to_seconds (some "1:05.5") = some (131 / 2) ∧
    parse_time_to_seconds (some "5.5") = some (11 / 2) := by
  refine ⟨fun v hv => parse_strict hv, ?_, rfl, by decide, by decide, ?_, ?_⟩
  · intro hnone
    have hsm : strictMatch (pyStrip s.data) = none := by
      cases hsm : strictMatch (pyStrip s.data) with
      | none => rfl
      | some v => exact absurd (strictMatch_sound hsm) (hnone v)
    constructor
    · intro tok htok
      rw [parse_some_eq, hsm, htok]
    · intro hnotok
      rw [parse_some_eq, hsm]
      cases hfa : findallNums (pyStrip s.data) with
      | nil => rfl
      | cons t ts =>
        cases ts with
        | nil => exact absurd ⟨t, hfa⟩ hnotok
        | cons t2 ts2 => rfl
  · have hspec : StrictSpec (pyStrip "1:05.5".data)
        ((digitsVal ['1'] : ℚ) * 60 + ((digitsVal ['0', '5'] : ℚ) + fracVal ['5'])) :=
      Or.inl ⟨['1'], ['0', '5'], ['.', '5'],
        (digitsVal ['0', '5'] : ℚ) + fracVal ['5'], by decide, by decide, by decide,
        ⟨by decide, by decide, by decide,
          Or.inr ⟨['5'], rfl, by decide, by decide, rfl⟩⟩, rfl⟩
    rw [parse_strict hspec,
      show digitsVal ['1'] = 1 from by decide,
      show digitsVal ['0', '5'] = 5 from by decide,
      show fracVal ['5'] = 1 / 2 from by
        rw [fracVal, show digitsVal ['5'] = 5 from by decide]
        norm_num]
    push_cast
    norm_num
  · have hspec : StrictSpec (pyStrip "5.5".data)
        ((digitsVal ['5'] : ℚ) + fracVal ['5']) :=
      Or.inr ⟨['5'], ['.', '5'], by decide,
        ⟨by decide, by decide, by decide,
          Or.inr ⟨['5'], rfl, by decide, by decide, rfl⟩⟩⟩
    rw [parse_strict hspec,
      show digitsVal ['5'] = 5 from by decide,
      show fracVal ['5'] = 1 / 2 from by
        rw [fracVal, show digitsVal ['5'] = 5 from by decide]
        norm_num]
    push_cast
    norm_num

/-- Witness for claim C3: its strict clause instantiated at 1:05.5. -/
theorem c3_parse_time_witness :
    (StrictSpec (pyStrip "1:05.5".data)
      ((digitsVal ['1'] : ℚ) * 60 + ((digitsVal ['0', '5'] : ℚ) + fracVal ['5'])) ∧
    parse_time_to_seconds (some "1:05.5") =
      some ((digitsVal ['1'] : ℚ) * 60 + ((digitsVal ['0', '5'] : ℚ) + fracVal ['5']))) := by
  have hspec : StrictSpec (pyStrip "1:05.5".data)
      ((digitsVal ['1'] : ℚ) * 60 + ((digitsVal ['0', '5'] : ℚ) + fracVal ['5'])) :=
    Or.inl ⟨['1'], ['0', '5'], ['.', '5'],
      (digitsVal ['0', '5'] : ℚ) + fracVal ['5'], by decide, by decide, by decide,
      ⟨by decide, by decide, by decide,
        Or.inr ⟨['5'], rfl, by decide, by decide, rfl⟩⟩, rfl⟩
  exact ⟨hspec, (c3_parse_time "1:05.5").1 _ hspec⟩

/-- The parser on an explicit minutes:seconds.fraction decomposition. -/
theorem parse_mmss {m d fd : List Char} (hmne : m ≠ [])
    (hmdig : m.all Char.isDigit = true) (hdne : d ≠ []) (hdlen : d.length ≤ 2)
    (hddig : d.all Char.isDigit = true) (hfne : fd ≠ [])
    (hfdig : fd.all Char.isDigit = true) :
    parse_time_to_seconds (some (String.mk (m ++ ':' :: (d ++ '.' :: fd)))) =
      some ((digitsVal m : ℚ) * 60 + ((digitsVal d : ℚ) + fracVal fd)) := by
  apply parse_strict
  have hws : pyStrip (String.mk (m ++ ':' :: (d ++ '.' :: fd))).data =
      m ++ ':' :: (d ++ '.' :: fd) := by
    apply pyStrip_eq_self
    intro c hc
    rcases List.mem_append.mp hc with h | h
    · exact not_ws_of_digit (all_digit_mem hmdig h)
    · rcases List.mem_cons.mp h with rfl | h
      · decide
      · rcases List.mem_append.mp h with h | h
        · exact not_ws_of_digit (all_digit_mem hddig h)
        · rcases List.mem_cons.mp h with rfl | h
          · decide
          · exact not_ws_of_digit (all_digit_mem hfdig h)
  rw [hws]
  exact Or.inl ⟨m, d, '.' :: fd, (digitsVal d : ℚ) + fracVal fd, rfl, hmne, hmdig,
    ⟨hdne, hdlen, hddig, Or.inr ⟨fd, rfl, hfne, hfdig, rfl⟩⟩, rfl⟩

/-! ## Claim C10: no range check on the seconds field -/

/-- Claim C10: the strict pattern applies no range check to its one-or-two
digit seconds field — any value of sixty or more parses as
minutes times sixty plus seconds; in particular 1:99.5 parses to 159.5. -/
theorem c10_no_range_check :
    (∀ m d fd : List Char, m ≠ [] → m.all Char.isDigit = true →
      d ≠ [] → d.length ≤ 2 → d.all Char.isDigit = true →
      fd ≠ [] → fd.all Char.isDigit = true →
      60 ≤ digitsVal d →
      parse_time_to_seconds (some (String.mk (m ++ ':' :: (d ++ '.' :: fd)))) =
        some ((digitsVal m : ℚ) * 60 + ((digitsVal d : ℚ) + fracVal fd))) ∧
    parse_time_to_seconds (some "1:99.5") = some (319 / 2) := by
  have key : ∀ m d fd : List Char, m ≠ [] → m.all Char.isDigit = true →
      d ≠ [] → d.length ≤ 2 → d.all Char.isDigit = true →
      fd ≠ [] → fd.all Char.isDigit = true →
      60 ≤ digitsVal d →
      parse_time_to_seconds (some (String.mk (m ++ ':' :: (d ++ '.' :: fd)))) =
        some ((digitsVal m : ℚ) * 60 + ((digitsVal d : ℚ) + fracVal fd)) := by
    intro m d fd hmne hmdig hdne hdlen hddig hfne hfdig _
    exact parse_mmss hmne hmdig hdne hdlen hddig hfne hfdig
  refine ⟨key, ?_⟩
  have h99 := key ['1'] ['9', '9'] ['5'] (by decide) (by decide) (by decide)
    (by decide) (by decide) (by decide) (by decide) (by decide)
  rw [show String.mk (['1'] ++ ':' :: (['9', '9'] ++ '.' :: ['5'])) = "1:99.5" from by decide]
    at h99
  rw [h99,
    show digitsVal ['1'] = 1 from by decide,
    show digitsVal ['9', '9'] = 99 from by decide,
    show fracVal ['5'] = 1 / 2 from by
      rw [fracVal, show digitsVal ['5'] = 5 from by decide]
      norm_num]
  push_cast
  norm_num

/-- Witness for claim C10 at the concrete input 1:99.5. -/
theorem c10_no_range_check_witness :
    ((['9', '9'] : List Char) ≠ [] ∧ 60 ≤ digitsVal ['9', '9'] ∧
      parse_time_to_seconds
        (some (String.mk (['1'] ++ ':' :: (['9', '9'] ++ '.' :: ['5'])))) =
        some ((digitsVal ['1'] : ℚ) * 60 + ((digitsVal ['9', '9'] : ℚ) + fracVal ['5']))) :=
  ⟨by decide, by decide,
    c10_no_range_check.1 ['1'] ['9', '9'] ['5'] (by decide) (by decide) (by decide)
      (by decide) (by decide) (by decide) (by decide) (by decide)⟩

/-! ## Claim C4: the round trip -/

/-- Digit renderings are no longer than the bound given by the value. -/
theorem natDigitsAux_length : ∀ k fuel n : ℕ, n < 10 ^ (k + 1) →
    (natDigitsAux fuel n).length ≤ k + 1 := by
  intro k
  induction k with
  | zero =>
    intro fuel n h
    cases fuel with
    | zero => simp [natDigitsAux]
    | succ f =>
      have h10 : n < 10 := by simpa using h
      simp [natDigitsAux, h10]
  | succ k ih =>
    intro fuel n h
    cases fuel with
    | zero => simp [natDigitsAux]
    | succ f =>
      by_cases hn : n < 10
      · simp [natDigitsAux, hn]
      · simp only [natDigitsAux, hn, if_false, List.length_append]
        have hdiv : n / 10 < 10 ^ (k + 1) := by
          rw [Nat.div_lt_iff_lt_mul (by norm_num)]
          calc n < 10 ^ (k + 2) := h
            _ = 10 ^ (k + 1) * 10 := by ring
        have := ih f (n / 10) hdiv
        simp only [List.length_singleton]
        omega

/-- A three-digit zero-padded field has width exactly three below 1000. -/
theorem padZeros_three_length {F : ℕ} (h : F < 1000) :
    (padZeros 3 (natDigits F)).length = 3 := by
  rw [padZeros, List.length_append, List.length_replicate]
  have := natDigitsAux_length 2 (F + 1) F (by norm_num; omega)
  rw [natDigits]
  omega

/-- Zero-padding a seconds-dot-fraction field to width six equals padding
the seconds part to width two when the fraction has three digits. -/
theorem padZeros_six (x y : List Char) (hy : y.length = 3) :
    padZeros 6 (x ++ '.' :: y) = padZeros 2 x ++ '.' :: y := by
  rw [padZeros, padZeros,
    show 6 - (x ++ '.' :: y).length = 2 - x.length from by
      rw [List.length_append, List.length_cons, hy]
      omega,
    List.append_assoc]

/-- Integer digit rendering agrees with natural digit rendering on casts. -/
theorem intDigits_natCast (n : ℕ) : intDigits (n : ℤ) = natDigits n := by
  rw [intDigits, if_neg (by exact_mod_cast Int.not_lt.mpr (Int.natCast_nonneg n))]
  simp

/-- Unfolding of the formatter at precision three. -/
theorem seconds_to_duration_some_three (v : ℚ) :
    seconds_to_duration (some v) 3 =
      String.mk (padZeros 2 (intDigits ⌊v / 60⌋) ++
        ':' :: padZeros 6 (intDigits (round3 (v - 60 * (⌊v / 60⌋ : ℚ)) / 1000) ++
          '.' :: padZeros 3 (natDigits ((round3 (v - 60 * (⌊v / 60⌋ : ℚ))) % 1000).toNat))) :=
  rfl

/-- Formatting of an exact minutes, seconds, milliseconds value at precision
three recovers the zero-padded normal form. -/
theorem seconds_to_duration_eq (M S F : ℕ) (hS : S < 60) (hF : F < 1000) :
    seconds_to_duration (some ((M : ℚ) * 60 + ((S : ℚ) + (F : ℚ) / 1000))) 3 =
      normalizedMMSS M S F := by
  have hrem_nonneg : (0 : ℚ) ≤ (S : ℚ) + (F : ℚ) / 1000 := by positivity
  have hrem_lt : (S : ℚ) + (F : ℚ) / 1000 < 60 := by
    have hF' : (F : ℚ) / 1000 < 1 := by
      rw [div_lt_one (by norm_num)]
      exact_mod_cast hF
    have hS' : (S : ℚ) ≤ 59 := by
      have : S ≤ 59 := by omega
      exact_mod_cast this
    linarith
  have hfloor : ⌊((M : ℚ) * 60 + ((S : ℚ) + (F : ℚ) / 1000)) / 60⌋ = (M : ℤ) := by
    rw [Int.floor_eq_iff]
    constructor
    · rw [le_div_iff₀ (by norm_num : (0 : ℚ) < 60)]
      push_cast
      linarith
    · rw [div_lt_iff₀ (by norm_num : (0 : ℚ) < 60)]
      push_cast
      linarith
  have hrem : (M : ℚ) * 60 + ((S : ℚ) + (F : ℚ) / 1000) - 60 * (((M : ℤ) : ℚ)) =
      (S : ℚ) + (F : ℚ) / 1000 := by
    push_cast
    ring
  have hround : round3 ((S : ℚ) + (F : ℚ) / 1000) = (S : ℤ) * 1000 + (F : ℤ) := by
    rw [round3]
    have he : ((S : ℚ) + (F : ℚ) / 1000) * 1000 + 1 / 2 =
        1 / 2 + (((S : ℤ) * 1000 + (F : ℤ) : ℤ) : ℚ) := by
      push_cast
      ring
    rw [he, Int.floor_add_int]
    norm_num
  have hdivS : ((S : ℤ) * 1000 + (F : ℤ)) / 1000 = (S : ℤ) := by omega
  have hmodF : (((S : ℤ) * 1000 + (F : ℤ)) % 1000).toNat = F := by
    have : ((S : ℤ) * 1000 + (F : ℤ)) % 1000 = (F : ℤ) := by omega
    rw [this]
    simp
  rw [seconds_to_duration_some_three, hfloor, hrem, hround, hdivS, hmodF,
    intDigits_natCast, intDigits_natCast,
    padZeros_six (natDigits S) (padZeros 3 (natDigits F)) (padZeros_three_length hF)]
  simp [normalizedMMSS, List.append_assoc]

/-- Claim C4: parsing a minutes-colon-two-digit-seconds-dot-three-digit
string with valid (below sixty) seconds and formatting the result at
precision three yields the zero-padded normal form of the same components —
the codec round-trips all valid inputs of the MM:SS.sss shape. -/
theorem c4_round_trip (m d fd : List Char)
    (hmne : m ≠ []) (hmdig : m.all Char.isDigit = true)
    (hddig : d.all Char.isDigit = true) (hdlen : d.length = 2)
    (hfdig : fd.all Char.isDigit = true) (hflen : fd.length = 3)
    (hlt : digitsVal d < 60) :
    seconds_to_duration
      (parse_time_to_seconds (some (String.mk (m ++ ':' :: (d ++ '.' :: fd))))) 3 =
      normalizedMMSS (digitsVal m) (digitsVal d) (digitsVal fd) := by
  have hdne : d ≠ [] := by
    intro h0
    rw [h0] at hdlen
    cases hdlen
  have hfne : fd ≠ [] := by
    intro h0
    rw [h0] at hflen
    cases hflen
  rw [parse_mmss hmne hmdig hdne (le_of_eq hdlen) hddig hfne hfdig]
  have hF : digitsVal fd < 1000 := by
    have := digitsVal_lt hfdig
    rw [hflen] at this
    norm_num at this
    exact this
  have hfrac : fracVal fd = (digitsVal fd : ℚ) / 1000 := by
    rw [fracVal, hflen]
    norm_num
  rw [hfrac]
  exact seconds_to_duration_eq (digitsVal m) (digitsVal d) (digitsVal fd) hlt hF

/-- Witness for claim C4 at the concrete input 01:39.289. -/
theorem c4_round_trip_witness :
    ((['0', '1'] : List Char) ≠ [] ∧ digitsVal ['3', '9'] < 60 ∧
      seconds_to_duration
        (parse_time_to_seconds
          (some (String.mk (['0', '1'] ++ ':' :: (['3', '9'] ++ '.' :: ['2', '8', '9']))))) 3 =
        normalizedMMSS (digitsVal ['0', '1']) (digitsVal ['3', '9'])
          (digitsVal ['2', '8', '9'])) :=
  ⟨by decide, by decide,
    c4_round_trip ['0', '1'] ['3', '9'] ['2', '8', '9'] (by decide) (by decide)
      (by decide) (by decide) (by decide) (by decide) (by decide)⟩

end Elite100
